import Mathlib

/-!
Verification development for the gowarcraft3 binary codec layer:
a cursor-based packet buffer with typed field encodings, and the
block-chunked, checksummed w3g compression container built on it
(src/file/w3g/compress.go).

Bytes are modelled as natural numbers; every write masks its value to the
field width, so all stored bytes are below 256 by construction.
-/

namespace GoWC3

/-- Little-endian encoding of a 16-bit value as two bytes. -/
def le16 (v : Nat) : List Nat := [v % 256, v / 256 % 256]

/-- Little-endian encoding of a 32-bit value as four bytes. -/
def le32 (v : Nat) : List Nat :=
  [v % 256, v / 256 % 256, v / 65536 % 256, v / 16777216 % 256]

/-- Big-endian (network order) encoding of a 16-bit value as two bytes. -/
def be16 (v : Nat) : List Nat := [v / 256 % 256, v % 256]

/-- Little-endian decoding of a byte list into a natural number. -/
def deLE (bs : List Nat) : Nat := bs.foldr (fun x a => x + 256 * a) 0

/-- Big-endian decoding of a byte list into a natural number. -/
def deBE (bs : List Nat) : Nat := bs.foldl (fun a x => a * 256 + x) 0

/-- Error taxonomy of the codec layer (sentinel errors of the util package). -/
inductive BufErr where
  | bufferUnderrun
  | invalidIP4
  | invalidSockAddr
  | noCStringTerminatorFound
deriving DecidableEq, Repr

/-- Modelled from the spec: the CursorBuffer / PacketBuffer implementation of
the util package is absent from the sources (only its tests are present).
`Bytes` is the contiguous store of valid data, so the write cursor is
`Bytes.length`; `readPos` is the read cursor (next byte to consume). -/
structure PacketBuffer where
  Bytes : List Nat
  readPos : Nat
deriving DecidableEq, Repr

namespace PacketBuffer

/-- Modelled from the spec: `Size()` is the unread byte count
`write_pos - read_pos`. -/
def size (b : PacketBuffer) : Nat := b.Bytes.length - b.readPos

/-- Modelled from the spec: `Truncate()` resets both cursors to zero. -/
def truncate (_ : PacketBuffer) : PacketBuffer := ⟨[], 0⟩

/-- Modelled from the spec: `Skip(n)` advances the read cursor by `n`. -/
def skip (b : PacketBuffer) (n : Nat) : PacketBuffer := ⟨b.Bytes, b.readPos + n⟩

/-- Modelled from the spec: `Write`/`WriteBlob` appends at the write cursor
and advances it; always succeeds. -/
def writeBlob (b : PacketBuffer) (p : List Nat) : PacketBuffer :=
  ⟨b.Bytes ++ p, b.readPos⟩

/-- Modelled from the spec: `ReadBlob(n)` returns `n` unread bytes from the
read cursor and advances it; underrun is a distinguishable error. -/
def readBlob (b : PacketBuffer) (n : Nat) : Except BufErr (List Nat × PacketBuffer) :=
  if b.size < n then .error .bufferUnderrun
  else .ok ((b.Bytes.drop b.readPos).take n, ⟨b.Bytes, b.readPos + n⟩)

/-- Overwrite bytes of `l` starting at `off` with `p` (in-place patch used by
the positional `WriteXAt` variants). -/
def patchAt (l : List Nat) (off : Nat) (p : List Nat) : List Nat :=
  l.take off ++ p ++ l.drop (off + p.length)

/-- Modelled from the spec: positional blob overwrite, bypassing cursors. -/
def writeBlobAt (b : PacketBuffer) (off : Nat) (p : List Nat) : PacketBuffer :=
  ⟨patchAt b.Bytes off p, b.readPos⟩

/-- Modelled from the spec: `WriteUInt8` appends one byte. -/
def writeUInt8 (b : PacketBuffer) (v : Nat) : PacketBuffer := b.writeBlob [v % 256]

/-- Modelled from the spec: `WriteUInt16`, little-endian. -/
def writeUInt16 (b : PacketBuffer) (v : Nat) : PacketBuffer := b.writeBlob (le16 v)

/-- Modelled from the spec: `WriteUInt32`, little-endian. -/
def writeUInt32 (b : PacketBuffer) (v : Nat) : PacketBuffer := b.writeBlob (le32 v)

/-- Modelled from the spec: `WritePort`, big-endian 16-bit. -/
def writePort (b : PacketBuffer) (v : Nat) : PacketBuffer := b.writeBlob (be16 v)

/-- Modelled from the spec: positional `WriteUInt8At`. -/
def writeUInt8At (b : PacketBuffer) (off v : Nat) : PacketBuffer :=
  b.writeBlobAt off [v % 256]

/-- Modelled from the spec: positional `WriteUInt16At`. -/
def writeUInt16At (b : PacketBuffer) (off v : Nat) : PacketBuffer :=
  b.writeBlobAt off (le16 v)

/-- Modelled from the spec: positional `WriteUInt32At`. -/
def writeUInt32At (b : PacketBuffer) (off v : Nat) : PacketBuffer :=
  b.writeBlobAt off (le32 v)

/-- Modelled from the spec: positional `WritePortAt`. -/
def writePortAt (b : PacketBuffer) (off v : Nat) : PacketBuffer :=
  b.writeBlobAt off (be16 v)

/-- Modelled from the spec: `ReadUInt8`. -/
def readUInt8 (b : PacketBuffer) : Except BufErr (Nat × PacketBuffer) :=
  match b.readBlob 1 with
  | .ok (bs, b2) => .ok (deLE bs, b2)
  | .error e => .error e

/-- Modelled from the spec: `ReadUInt16`, little-endian. -/
def readUInt16 (b : PacketBuffer) : Except BufErr (Nat × PacketBuffer) :=
  match b.readBlob 2 with
  | .ok (bs, b2) => .ok (deLE bs, b2)
  | .error e => .error e

/-- Modelled from the spec: `ReadUInt32`, little-endian. -/
def readUInt32 (b : PacketBuffer) : Except BufErr (Nat × PacketBuffer) :=
  match b.readBlob 4 with
  | .ok (bs, b2) => .ok (deLE bs, b2)
  | .error e => .error e

/-- Modelled from the spec: `ReadPort`, big-endian 16-bit. -/
def readPort (b : PacketBuffer) : Except BufErr (Nat × PacketBuffer) :=
  match b.readBlob 2 with
  | .ok (bs, b2) => .ok (deBE bs, b2)
  | .error e => .error e

/-- Modelled from the spec: `WriteIP` appends the 4 raw address octets; fails
with `InvalidIPv4` when the address is absent or not exactly 4 bytes. -/
def writeIP (b : PacketBuffer) (ip : Option (List Nat)) : Except BufErr PacketBuffer :=
  match ip with
  | none => .error .invalidIP4
  | some l => if l.length = 4 then .ok (b.writeBlob l) else .error .invalidIP4

/-- Modelled from the spec: positional `WriteIPAt` with the same 4-byte check. -/
def writeIPAt (b : PacketBuffer) (off : Nat) (ip : Option (List Nat)) :
    Except BufErr PacketBuffer :=
  match ip with
  | none => .error .invalidIP4
  | some l => if l.length = 4 then .ok (b.writeBlobAt off l) else .error .invalidIP4

/-- Modelled from the spec: `ReadIP` reads 4 raw octets. -/
def readIP (b : PacketBuffer) : Except BufErr (List Nat × PacketBuffer) :=
  b.readBlob 4

end PacketBuffer

/-- A socket address: 16-bit port and an optional raw 4-byte IPv4 address. -/
structure SockAddr where
  Port : Nat
  IP : Option (List Nat)
deriving DecidableEq, Repr

namespace PacketBuffer

/-- Modelled from the spec: `WriteSockAddr` emits the fixed 16-byte record
family(2,le) - port(2,be) - ipv4(4) - reserved(8, zero); an absent address
gives family 0 with port forced to 0 and all remaining bytes zero;
a present address failing the 4-byte check propagates `InvalidIPv4`. -/
def writeSockAddr (b : PacketBuffer) (a : SockAddr) : Except BufErr PacketBuffer :=
  match a.IP with
  | none => .ok (b.writeBlob (List.replicate 16 0))
  | some l =>
      if l.length = 4 then
        .ok (b.writeBlob (le16 2 ++ be16 a.Port ++ l ++ List.replicate 8 0))
      else .error .invalidIP4

/-- Modelled from the spec: `ReadSockAddr` parses the 16-byte record; family 0
requires bytes 2..16 zero, family 2 requires the reserved bytes 8..16 zero,
any other family is invalid. -/
def readSockAddr (b : PacketBuffer) : Except BufErr (SockAddr × PacketBuffer) :=
  match b.readBlob 16 with
  | .error e => .error e
  | .ok (bs, b2) =>
      let fam := deLE (bs.take 2)
      if fam = 0 then
        if (bs.drop 2).all (fun x => x = 0) then .ok (⟨0, none⟩, b2)
        else .error .invalidSockAddr
      else if fam = 2 then
        if (bs.drop 8).all (fun x => x = 0) then
          .ok (⟨deBE ((bs.drop 2).take 2), some ((bs.drop 4).take 4)⟩, b2)
        else .error .invalidSockAddr
      else .error .invalidSockAddr

/-- Modelled from the spec: `WriteCString` appends the content bytes followed
by a single zero terminator. -/
def writeCString (b : PacketBuffer) (s : List Nat) : PacketBuffer :=
  b.writeBlob (s ++ [0])

/-- Modelled from the spec: `ReadCString` scans forward from the read cursor
for a zero byte; on success returns the bytes before it and advances past the
terminator; otherwise fails with `NoTerminatorFound` leaving the read cursor
at the end of the buffer. -/
def readCString (b : PacketBuffer) : Except BufErr (List Nat) × PacketBuffer :=
  let un := b.Bytes.drop b.readPos
  match un.findIdx? (fun x => x = 0) with
  | some i => (.ok (un.take i), ⟨b.Bytes, b.readPos + i + 1⟩)
  | none => (.error .noCStringTerminatorFound, ⟨b.Bytes, b.Bytes.length⟩)

end PacketBuffer

/-! ## The w3g block compressor (src/file/w3g/compress.go)

The deflate transform (`compress/zlib`) and the output sink are external
collaborators; the per-block interaction with them is abstracted as an
environment giving, for each block, the transform's absorbed-byte count and
error, the flush error, the compressed payload bytes the transform deposits
into the buffer, and the sink's written-byte count and error. -/

/-- One step of the IEEE CRC32 (reflected, polynomial 0xEDB88320). -/
def crc32Update (crc : Nat) (b : Nat) : Nat :=
  (List.range 8).foldl
    (fun c _ => if c % 2 = 1 then (c / 2) ^^^ 0xEDB88320 else c / 2)
    (crc ^^^ b % 256)

/-- IEEE CRC32 of a byte list (`hash/crc32.ChecksumIEEE`). -/
def crc32 (data : List Nat) : Nat :=
  0xFFFFFFFF ^^^ data.foldl crc32Update 0xFFFFFFFF

/-- Fold a 32-bit checksum to 16 bits by XOR-ing its high and low halves
(the Go expression `uint16(crc ^ crc>>16)`). -/
def foldCrc (c : Nat) : Nat := (c ^^^ c / 65536) % 65536

/-- Outcome of the external collaborators for one block: `zn`/`zerr` from
`z.Write` on the chunk, `ferr` from `z.Flush`, `payload` the compressed bytes
the transform deposits in the buffer, `wn`/`werr` from the sink write. -/
structure BlockRes where
  zn : Nat
  zerr : Option Unit
  ferr : Option Unit
  payload : List Nat
  wn : Nat
  werr : Option Unit
deriving DecidableEq, Repr

/-- The three uint32 stream counters of a `Compressor`. -/
structure CompState where
  SizeWritten : Nat
  SizeTotal : Nat
  NumBlocks : Nat
deriving DecidableEq, Repr

/-- Result of `Compressor.Write`: the returned byte count and error, the final
counters, and the trace of sink `Write` calls (the emitted blocks, in order). -/
structure WriteResult where
  n : Nat
  err : Option Unit
  st : CompState
  out : List (List Nat)
deriving DecidableEq, Repr

/-- Build one block in the reusable buffer exactly as `Compressor.Write` does:
placeholder header, compressed payload, then in-place patches of
compressedSize, headerChecksum and dataChecksum. `l` is the chunk length. -/
def mkBlockBuffer (l : Nat) (payload : List Nat) : PacketBuffer :=
  let b := PacketBuffer.truncate ⟨[], 0⟩
  let b := b.writeUInt16 0
  let b := b.writeUInt16 l
  let b := b.writeUInt32 0
  let b := b.writeBlob payload
  let b := b.writeUInt16At 0 (b.size - 8)
  let crcHead := crc32 (b.Bytes.take 8)
  let b := b.writeUInt16At 4 (foldCrc crcHead)
  let crcData := crc32 (b.Bytes.drop 8)
  let b := b.writeUInt16At 6 (foldCrc crcData)
  b

/-- The bytes of one emitted block. -/
def mkBlock (l : Nat) (payload : List Nat) : List Nat :=
  (mkBlockBuffer l payload).Bytes

/-- The chunk-splitting of `Compressor.Write`: successive chunks of at most
65535 bytes. Structurally recursive on a fuel bound; every iteration consumes
at least one byte, so fuel `b.length` (used by `chunksOf`) is exact. -/
def chunksGo : Nat → List Nat → List (List Nat)
  | 0, _ => []
  | fuel + 1, b =>
      if b = [] then []
      else
        let l := min b.length 65535
        b.take l :: chunksGo fuel (b.drop l)

/-- The chunks that one `Compressor.Write` call splits its input into. -/
def chunksOf (b : List Nat) : List (List Nat) := chunksGo b.length b

/-- The loop of `Compressor.Write`, from src/file/w3g/compress.go lines 40-87,
over an abstract per-block environment `env` (indexed by block number within
this call, applied to the chunk). Returns the count absorbed by the
transform, the error, the updated counters, and the emitted blocks.
Structurally recursive on a fuel bound; every iteration consumes at least one
byte, so fuel `b.length` (used by `compressorWrite`) is exact. -/
def cwGo (env : Nat → List Nat → BlockRes) :
    Nat → Nat → CompState → List Nat → WriteResult
  | 0, _, st, _ => ⟨0, none, st, []⟩
  | fuel + 1, i, st, b =>
      if b = [] then ⟨0, none, st, []⟩
      else
        let l := min b.length 65535
        let c := b.take l
        let r := env i c
        if r.zerr.isSome then ⟨r.zn, r.zerr, st, []⟩
        else if r.ferr.isSome then ⟨r.zn, r.ferr, st, []⟩
        else
          let blk := mkBlock l r.payload
          let st2 : CompState :=
            ⟨(st.SizeWritten + r.wn % 4294967296) % 4294967296,
             (st.SizeTotal + r.zn % 4294967296) % 4294967296,
             (st.NumBlocks + 1) % 4294967296⟩
          if r.werr.isSome then ⟨r.zn, r.werr, st2, [blk]⟩
          else
            let rest := cwGo env fuel (i + 1) st2 (b.drop l)
            ⟨r.zn + rest.n, rest.err, rest.st, blk :: rest.out⟩

/-- `Compressor.Write` over the abstract environment. -/
def compressorWrite (env : Nat → List Nat → BlockRes) (st : CompState)
    (b : List Nat) : WriteResult :=
  cwGo env b.length 0 st b

/-- The error-free environment determined by a deterministic compression
function `Z`: the transform absorbs the whole chunk (io.Writer contract),
deposits `Z chunk`, and the sink writes the whole block. -/
def pureEnv (Z : List Nat → List Nat) : Nat → List Nat → BlockRes :=
  fun _ c => ⟨c.length, none, none, Z c, (mkBlock c.length (Z c)).length, none⟩

/-! ## BufferedCompressor (bufio-buffered writer on top of the Compressor) -/

/-- State of a `BufferedCompressor`: the underlying compressor counters, the
bufio buffer contents, and the bufio buffer capacity. -/
structure BufferedCompressor where
  comp : CompState
  buf : List Nat
  cap : Nat
deriving DecidableEq, Repr

/-- bufio `Available()`: free space in the buffer. -/
def BufferedCompressor.avail (d : BufferedCompressor) : Nat :=
  d.cap - d.buf.length

/-- bufio `Buffered()`: bytes currently buffered. -/
def BufferedCompressor.buffered (d : BufferedCompressor) : Nat :=
  d.buf.length

/-- Go uint32 subtraction `x - y` (two's-complement wraparound). -/
def sub32 (x y : Nat) : Nat := (x + (4294967296 - y % 4294967296)) % 4294967296

/-- bufio `Write` for a payload that fits in the free space (the only case
`Close` exercises: it writes exactly `Available()` bytes): append to the
buffer without flushing, returning the byte count. -/
def BufferedCompressor.bufWriteFit (d : BufferedCompressor) (p : List Nat) :
    BufferedCompressor × Nat :=
  (⟨d.comp, d.buf ++ p, d.cap⟩, p.length)

/-- bufio `Flush`: submit the buffered bytes to `Compressor.Write` (with
compression function `Z`) and empty the buffer. Returns the new state and the
blocks emitted to the sink. -/
def BufferedCompressor.flush (Z : List Nat → List Nat) (d : BufferedCompressor) :
    BufferedCompressor × List (List Nat) :=
  if d.buf = [] then (d, [])
  else
    let r := compressorWrite (pureEnv Z) d.comp d.buf
    (⟨r.st, [], d.cap⟩, r.out)

/-- `BufferedCompressor.Close` (src/file/w3g/compress.go lines 139-146): if the
buffer has free space and holds unflushed bytes, write that many zero bytes,
subtract them from `SizeTotal`, then flush. Returns the final state, the
emitted blocks, and the pad length. -/
def BufferedCompressor.close (Z : List Nat → List Nat) (d : BufferedCompressor) :
    BufferedCompressor × List (List Nat) × Nat :=
  let a := d.avail
  if 0 < a ∧ 0 < d.buffered then
    let (d1, n) := d.bufWriteFit (List.replicate a 0)
    let d2 : BufferedCompressor := ⟨⟨d1.comp.SizeWritten, sub32 d1.comp.SizeTotal n,
      d1.comp.NumBlocks⟩, d1.buf, d1.cap⟩
    let (d3, out) := d2.flush Z
    (d3, out, a)
  else
    let (d3, out) := d.flush Z
    (d3, out, 0)

/-! ## Basic lemmas -/

theorem deLE_le16 (v : Nat) : deLE (le16 v) = v % 65536 := by
  simp only [deLE, le16, List.foldr]
  omega

theorem foldCrc_lt (c : Nat) : foldCrc c < 65536 := by
  simp only [foldCrc]
  omega

theorem mkBlock_eq (l : Nat) (p : List Nat) :
    mkBlock l p =
      le16 p.length ++ le16 l ++
      le16 (foldCrc (crc32 (le16 p.length ++ le16 l ++ [0, 0, 0, 0]))) ++
      le16 (foldCrc (crc32 p)) ++ p := by
  simp [mkBlock, mkBlockBuffer, PacketBuffer.truncate, PacketBuffer.writeUInt16,
    PacketBuffer.writeUInt32, PacketBuffer.writeBlob, PacketBuffer.writeUInt16At,
    PacketBuffer.writeBlobAt, PacketBuffer.size, le32, PacketBuffer.patchAt, le16]

theorem chunksGo_congr : ∀ f1 f2 b, b.length ≤ f1 → b.length ≤ f2 →
    chunksGo f1 b = chunksGo f2 b := by
  intro f1
  induction f1 with
  | zero =>
      intro f2 b h1 _
      have hb : b = [] := List.eq_nil_of_length_eq_zero (Nat.le_zero.mp h1)
      subst hb
      cases f2 <;> simp [chunksGo]
  | succ f ih =>
      intro f2 b h1 h2
      by_cases hb : b = []
      · subst hb; cases f2 <;> simp [chunksGo]
      · have hlen : 0 < b.length := List.length_pos.mpr hb
        cases f2 with
        | zero => omega
        | succ f2 =>
            simp only [chunksGo, if_neg hb]
            have hdrop : (b.drop (min b.length 65535)).length ≤ f := by
              simp only [List.length_drop]
              omega
            have hdrop2 : (b.drop (min b.length 65535)).length ≤ f2 := by
              simp only [List.length_drop]
              omega
            rw [ih _ _ hdrop hdrop2]

theorem chunksOf_cons {b : List Nat} (hb : b ≠ []) :
    chunksOf b = b.take (min b.length 65535) ::
      chunksOf (b.drop (min b.length 65535)) := by
  have hlen : 0 < b.length := List.length_pos.mpr hb
  obtain ⟨n, hn⟩ : ∃ n, b.length = n + 1 := ⟨b.length - 1, by omega⟩
  have h1 : (b.drop (min b.length 65535)).length ≤ n := by
    simp only [List.length_drop]; omega
  calc chunksOf b = chunksGo (n + 1) b := by unfold chunksOf; rw [hn]
    _ = b.take (min b.length 65535) :: chunksGo n (b.drop (min b.length 65535)) := by
        simp only [chunksGo, if_neg hb]
    _ = _ := by
        unfold chunksOf
        rw [chunksGo_congr n _ _ h1 (Nat.le_refl _)]

theorem chunksGo_flatten : ∀ fuel b, b.length ≤ fuel →
    (chunksGo fuel b).flatten = b := by
  intro fuel
  induction fuel with
  | zero =>
      intro b h
      have hb : b = [] := List.eq_nil_of_length_eq_zero (Nat.le_zero.mp h)
      subst hb; rfl
  | succ f ih =>
      intro b h
      by_cases hb : b = []
      · subst hb; rfl
      · have hlen : 0 < b.length := List.length_pos.mpr hb
        simp only [chunksGo, if_neg hb, List.flatten_cons]
        rw [ih]
        · exact List.take_append_drop _ b
        · simp only [List.length_drop]; omega

theorem chunksGo_mem : ∀ fuel b c, b.length ≤ fuel → c ∈ chunksGo fuel b →
    0 < c.length ∧ c.length ≤ 65535 := by
  intro fuel
  induction fuel with
  | zero =>
      intro b c h hc
      have hb : b = [] := List.eq_nil_of_length_eq_zero (Nat.le_zero.mp h)
      subst hb; simp [chunksGo] at hc
  | succ f ih =>
      intro b c h hc
      by_cases hb : b = []
      · subst hb; simp [chunksGo] at hc
      · have hlen : 0 < b.length := List.length_pos.mpr hb
        simp only [chunksGo, if_neg hb, List.mem_cons] at hc
        rcases hc with hc | hc
        · subst hc
          simp only [List.length_take]
          omega
        · exact ih _ _ (by simp only [List.length_drop]; omega) hc

theorem chunksOf_mem {b c : List Nat} (hc : c ∈ chunksOf b) :
    0 < c.length ∧ c.length ≤ 65535 :=
  chunksGo_mem _ _ _ (Nat.le_refl _) hc

theorem chunksOf_flatten (b : List Nat) : (chunksOf b).flatten = b :=
  chunksGo_flatten _ _ (Nat.le_refl _)

theorem chunksOf_ne_nil {b : List Nat} (hb : b ≠ []) : chunksOf b ≠ [] := by
  rw [chunksOf_cons hb]
  simp

theorem cwGo_pure_out (Z : List Nat → List Nat) : ∀ fuel b i st, b.length ≤ fuel →
    (cwGo (pureEnv Z) fuel i st b).out =
      (chunksGo fuel b).map (fun c => mkBlock c.length (Z c)) := by
  intro fuel
  induction fuel with
  | zero => intro b i st _; rfl
  | succ f ih =>
      intro b i st h
      by_cases hb : b = []
      · subst hb; rfl
      · have hlen : 0 < b.length := List.length_pos.mpr hb
        simp only [cwGo, chunksGo, if_neg hb, pureEnv, Option.isSome_none,
          Bool.false_eq_true, if_false, List.map_cons]
        rw [ih _ _ _ (by simp only [List.length_drop]; omega)]
        have htk : (b.take (min b.length 65535)).length = min b.length 65535 := by
          simp only [List.length_take]
          omega
        rw [htk]

theorem compressorWrite_pure_out (Z : List Nat → List Nat) (st : CompState)
    (b : List Nat) :
    (compressorWrite (pureEnv Z) st b).out =
      (chunksOf b).map (fun c => mkBlock c.length (Z c)) :=
  cwGo_pure_out Z _ _ _ _ (Nat.le_refl _)

theorem mkBlock_fields (l : Nat) (p : List Nat) :
    (mkBlock l p).length = 8 + p.length ∧
    (mkBlock l p).take 2 = le16 p.length ∧
    ((mkBlock l p).drop 2).take 2 = le16 l ∧
    ((mkBlock l p).drop 4).take 2 =
      le16 (foldCrc (crc32 (le16 p.length ++ le16 l ++ [0, 0, 0, 0]))) ∧
    ((mkBlock l p).drop 6).take 2 = le16 (foldCrc (crc32 p)) ∧
    (mkBlock l p).drop 8 = p := by
  rw [mkBlock_eq]
  simp [le16]
  omega

/-! ## Claim theorems for the compressor -/

/-- C1: Every `Compressor.Write` call with non-empty input consumes the input
in chunks of at most 65535 bytes; each chunk yields exactly one emitted block
whose 8-byte header has decompressedSize (le u16 at offset 2) equal to the
chunk length, compressedSize (le u16 at offset 0) equal to the byte count
after offset 8, headerChecksum (offset 4) the XOR-folded CRC32 of the first 8
header bytes with both checksum fields still zero and compressedSize patched,
and dataChecksum (offset 6) the XOR-folded CRC32 of the payload from offset 8
to the end. -/
theorem c1_write_chunked_block_format (Z : List Nat → List Nat) (st : CompState)
    (b : List Nat) (hb : b ≠ [])
    (hZ : ∀ c ∈ chunksOf b, (Z c).length < 65536) :
    (compressorWrite (pureEnv Z) st b).out =
      (chunksOf b).map (fun c => mkBlock c.length (Z c)) ∧
    chunksOf b ≠ [] ∧
    (chunksOf b).flatten = b ∧
    (∀ c ∈ chunksOf b, 0 < c.length ∧ c.length ≤ 65535) ∧
    (∀ c ∈ chunksOf b,
      (mkBlock c.length (Z c)).length = 8 + (Z c).length ∧
      deLE (((mkBlock c.length (Z c)).drop 2).take 2) = c.length ∧
      deLE ((mkBlock c.length (Z c)).take 2) = (Z c).length ∧
      deLE (((mkBlock c.length (Z c)).drop 4).take 2) =
        foldCrc (crc32 (le16 (Z c).length ++ le16 c.length ++ [0, 0, 0, 0])) ∧
      deLE (((mkBlock c.length (Z c)).drop 6).take 2) =
        foldCrc (crc32 ((mkBlock c.length (Z c)).drop 8)) ∧
      (mkBlock c.length (Z c)).drop 8 = Z c) := by
  refine ⟨compressorWrite_pure_out Z st b, chunksOf_ne_nil hb, chunksOf_flatten b,
    fun c hc => chunksOf_mem hc, fun c hc => ?_⟩
  obtain ⟨hf1, hf2, hf3, hf4, hf5, hf6⟩ := mkBlock_fields c.length (Z c)
  obtain ⟨hc1, hc2⟩ := chunksOf_mem hc
  refine ⟨hf1, ?_, ?_, ?_, ?_, hf6⟩
  · rw [hf3, deLE_le16, Nat.mod_eq_of_lt (by omega)]
  · rw [hf2, deLE_le16, Nat.mod_eq_of_lt (hZ c hc)]
  · rw [hf4, deLE_le16, Nat.mod_eq_of_lt (foldCrc_lt _)]
  · rw [hf5, hf6, deLE_le16, Nat.mod_eq_of_lt (foldCrc_lt _)]

/-- Witness for C1 at input `[7]` with the identity compression function. -/
theorem c1_write_chunked_block_format_witness :
    (([7] : List Nat) ≠ [] ∧ ∀ c ∈ chunksOf [7], (id c).length < 65536) ∧
    ((compressorWrite (pureEnv id) ⟨0, 0, 0⟩ [7]).out =
      (chunksOf [7]).map (fun c => mkBlock c.length (id c)) ∧
    chunksOf [7] ≠ [] ∧
    (chunksOf [7]).flatten = [7] ∧
    (∀ c ∈ chunksOf [7], 0 < c.length ∧ c.length ≤ 65535) ∧
    (∀ c ∈ chunksOf [7],
      (mkBlock c.length (id c)).length = 8 + (id c).length ∧
      deLE (((mkBlock c.length (id c)).drop 2).take 2) = c.length ∧
      deLE ((mkBlock c.length (id c)).take 2) = (id c).length ∧
      deLE (((mkBlock c.length (id c)).drop 4).take 2) =
        foldCrc (crc32 (le16 (id c).length ++ le16 c.length ++ [0, 0, 0, 0])) ∧
      deLE (((mkBlock c.length (id c)).drop 6).take 2) =
        foldCrc (crc32 ((mkBlock c.length (id c)).drop 8)) ∧
      (mkBlock c.length (id c)).drop 8 = id c)) :=
  ⟨⟨by decide, by decide⟩,
    c1_write_chunked_block_format id ⟨0, 0, 0⟩ [7] (by decide) (by decide)⟩

/-- The loop of `Compressor.Write` expressed over the pre-split chunk list;
used to reason about the per-iteration failure semantics. -/
def runSpec (env : Nat → List Nat → BlockRes) :
    Nat → List (List Nat) → CompState → WriteResult
  | _, [], st => ⟨0, none, st, []⟩
  | i, c :: ch, st =>
      let r := env i c
      if r.zerr.isSome then ⟨r.zn, r.zerr, st, []⟩
      else if r.ferr.isSome then ⟨r.zn, r.ferr, st, []⟩
      else
        let blk := mkBlock c.length r.payload
        let st2 : CompState :=
          ⟨(st.SizeWritten + r.wn % 4294967296) % 4294967296,
           (st.SizeTotal + r.zn % 4294967296) % 4294967296,
           (st.NumBlocks + 1) % 4294967296⟩
        if r.werr.isSome then ⟨r.zn, r.werr, st2, [blk]⟩
        else
          let rest := runSpec env (i + 1) ch st2
          ⟨r.zn + rest.n, rest.err, rest.st, blk :: rest.out⟩

theorem cwGo_eq_runSpec (env : Nat → List Nat → BlockRes) :
    ∀ fuel b i st, b.length ≤ fuel →
    cwGo env fuel i st b = runSpec env i (chunksGo fuel b) st := by
  intro fuel
  induction fuel with
  | zero =>
      intro b i st h
      have hb : b = [] := List.eq_nil_of_length_eq_zero (Nat.le_zero.mp h)
      subst hb; rfl
  | succ f ih =>
      intro b i st h
      by_cases hb : b = []
      · subst hb; rfl
      · have hlen : 0 < b.length := List.length_pos.mpr hb
        have htk : (b.take (min b.length 65535)).length = min b.length 65535 := by
          simp only [List.length_take]; omega
        simp only [cwGo, chunksGo, if_neg hb, runSpec, htk]
        rw [ih _ _ _ (by simp only [List.length_drop]; omega)]

theorem compressorWrite_eq_runSpec (env : Nat → List Nat → BlockRes)
    (st : CompState) (b : List Nat) :
    compressorWrite env st b = runSpec env 0 (chunksOf b) st :=
  cwGo_eq_runSpec env _ _ _ _ (Nat.le_refl _)

/-- All three collaborator stages of block `i` on chunk `c` succeed. -/
def envOk (env : Nat → List Nat → BlockRes) (i : Nat) (c : List Nat) : Prop :=
  (env i c).zerr = none ∧ (env i c).ferr = none ∧ (env i c).werr = none

/-- Bytes absorbed by the compression transform over the first `k` chunks
(block numbering starting at `i`). -/
def sumZn (env : Nat → List Nat → BlockRes) : Nat → List (List Nat) → Nat → Nat
  | _, _, 0 => 0
  | _, [], _ + 1 => 0
  | i, c :: ch, k + 1 => (env i c).zn + sumZn env (i + 1) ch k

/-- The blocks built from the first `k` chunks (block numbering from `i`). -/
def blocksUpTo (env : Nat → List Nat → BlockRes) :
    Nat → List (List Nat) → Nat → List (List Nat)
  | _, _, 0 => []
  | _, [], _ + 1 => []
  | i, c :: ch, k + 1 =>
      mkBlock c.length (env i c).payload :: blocksUpTo env (i + 1) ch k

theorem runSpec_fail (env : Nat → List Nat → BlockRes) :
    ∀ k ch i st, k < ch.length →
    (∀ j, j < k → envOk env (i + j) (ch.getD j [])) →
    (((env (i + k) (ch.getD k [])).zerr.isSome →
        (runSpec env i ch st).n = sumZn env i ch (k + 1) ∧
        (runSpec env i ch st).err = (env (i + k) (ch.getD k [])).zerr ∧
        (runSpec env i ch st).out = blocksUpTo env i ch k) ∧
     ((env (i + k) (ch.getD k [])).zerr = none →
      (env (i + k) (ch.getD k [])).ferr.isSome →
        (runSpec env i ch st).n = sumZn env i ch (k + 1) ∧
        (runSpec env i ch st).err = (env (i + k) (ch.getD k [])).ferr ∧
        (runSpec env i ch st).out = blocksUpTo env i ch k) ∧
     ((env (i + k) (ch.getD k [])).zerr = none →
      (env (i + k) (ch.getD k [])).ferr = none →
      (env (i + k) (ch.getD k [])).werr.isSome →
        (runSpec env i ch st).n = sumZn env i ch (k + 1) ∧
        (runSpec env i ch st).err = (env (i + k) (ch.getD k [])).werr ∧
        (runSpec env i ch st).out = blocksUpTo env i ch k ++
          [mkBlock (ch.getD k []).length (env (i + k) (ch.getD k [])).payload])) := by
  intro k
  induction k with
  | zero =>
      intro ch i st hk _
      cases ch with
      | nil => simp at hk
      | cons c ch =>
          simp only [List.getD_cons_zero, Nat.add_zero]
          refine ⟨fun hz => ?_, fun hz hf => ?_, fun hz hf hw => ?_⟩
          · simp [runSpec, if_pos hz, sumZn, blocksUpTo]
          · simp [runSpec, hz, if_pos hf, sumZn, blocksUpTo]
          · simp [runSpec, hz, hf, if_pos hw, sumZn, blocksUpTo]
  | succ k ih =>
      intro ch i st hk hok
      cases ch with
      | nil => simp at hk
      | cons c ch =>
          obtain ⟨hz0, hf0, hw0⟩ := hok 0 (Nat.succ_pos k)
          simp only [List.getD_cons_zero, Nat.add_zero] at hz0 hf0 hw0
          have hok2 : ∀ j, j < k → envOk env (i + 1 + j) (ch.getD j []) := by
            intro j hj
            have := hok (j + 1) (by omega)
            simp only [List.getD_cons_succ] at this
            have harith : i + (j + 1) = i + 1 + j := by omega
            rwa [harith] at this
          have hk2 : k < ch.length := by simp at hk; omega
          have ihch := ih ch (i + 1) (⟨(st.SizeWritten + (env i c).wn % 4294967296) % 4294967296,
            (st.SizeTotal + (env i c).zn % 4294967296) % 4294967296,
            (st.NumBlocks + 1) % 4294967296⟩ : CompState) hk2 hok2
          have harith2 : i + (k + 1) = i + 1 + k := by omega
          simp only [List.getD_cons_succ, harith2]
          have hrun : runSpec env i (c :: ch) st =
              ⟨(env i c).zn + (runSpec env (i + 1) ch
                  ⟨(st.SizeWritten + (env i c).wn % 4294967296) % 4294967296,
                   (st.SizeTotal + (env i c).zn % 4294967296) % 4294967296,
                   (st.NumBlocks + 1) % 4294967296⟩).n,
               (runSpec env (i + 1) ch
                  ⟨(st.SizeWritten + (env i c).wn % 4294967296) % 4294967296,
                   (st.SizeTotal + (env i c).zn % 4294967296) % 4294967296,
                   (st.NumBlocks + 1) % 4294967296⟩).err,
               (runSpec env (i + 1) ch
                  ⟨(st.SizeWritten + (env i c).wn % 4294967296) % 4294967296,
                   (st.SizeTotal + (env i c).zn % 4294967296) % 4294967296,
                   (st.NumBlocks + 1) % 4294967296⟩).st,
               mkBlock c.length (env i c).payload ::
                 (runSpec env (i + 1) ch
                  ⟨(st.SizeWritten + (env i c).wn % 4294967296) % 4294967296,
                   (st.SizeTotal + (env i c).zn % 4294967296) % 4294967296,
                   (st.NumBlocks + 1) % 4294967296⟩).out⟩ := by
            simp only [runSpec, hz0, hf0, hw0, Option.isSome_none,
              Bool.false_eq_true, if_false]
          refine ⟨fun hz => ?_, fun hz hf => ?_, fun hz hf hw => ?_⟩
          · obtain ⟨h1, h2, h3⟩ := ihch.1 hz
            rw [hrun]
            simp only [sumZn, blocksUpTo]
            exact ⟨by rw [h1], h2, by rw [h3]⟩
          · obtain ⟨h1, h2, h3⟩ := ihch.2.1 hz hf
            rw [hrun]
            simp only [sumZn, blocksUpTo]
            exact ⟨by rw [h1], h2, by rw [h3]⟩
          · obtain ⟨h1, h2, h3⟩ := ihch.2.2 hz hf hw
            rw [hrun]
            simp only [sumZn, blocksUpTo]
            exact ⟨by rw [h1], h2, by rw [h3, List.cons_append]⟩

/-- C2: A transform or sink failure aborts `Compressor.Write` immediately,
returning the bytes absorbed by the compression transform so far together
with the error; blocks fully written to the sink in earlier loop iterations
stay emitted (the sink trace keeps exactly them). The three conjuncts cover a
failure of the transform write, of the transform flush, and of the sink. -/
theorem c2_write_failure_semantics (env : Nat → List Nat → BlockRes)
    (st : CompState) (b : List Nat) (k : Nat)
    (hk : k < (chunksOf b).length)
    (hok : ∀ j, j < k → envOk env j ((chunksOf b).getD j [])) :
    (((env k ((chunksOf b).getD k [])).zerr.isSome →
       (compressorWrite env st b).n = sumZn env 0 (chunksOf b) (k + 1) ∧
       (compressorWrite env st b).err = (env k ((chunksOf b).getD k [])).zerr ∧
       (compressorWrite env st b).out = blocksUpTo env 0 (chunksOf b) k) ∧
     ((env k ((chunksOf b).getD k [])).zerr = none →
      (env k ((chunksOf b).getD k [])).ferr.isSome →
       (compressorWrite env st b).n = sumZn env 0 (chunksOf b) (k + 1) ∧
       (compressorWrite env st b).err = (env k ((chunksOf b).getD k [])).ferr ∧
       (compressorWrite env st b).out = blocksUpTo env 0 (chunksOf b) k) ∧
     ((env k ((chunksOf b).getD k [])).zerr = none →
      (env k ((chunksOf b).getD k [])).ferr = none →
      (env k ((chunksOf b).getD k [])).werr.isSome →
       (compressorWrite env st b).n = sumZn env 0 (chunksOf b) (k + 1) ∧
       (compressorWrite env st b).err = (env k ((chunksOf b).getD k [])).werr ∧
       (compressorWrite env st b).out = blocksUpTo env 0 (chunksOf b) k ++
         [mkBlock ((chunksOf b).getD k []).length
           (env k ((chunksOf b).getD k [])).payload])) := by
  have h := runSpec_fail env k (chunksOf b) 0 st hk
    (by intro j hj; simpa using hok j hj)
  rw [compressorWrite_eq_runSpec]
  simpa using h

/-- Witness for C2: a transform-write failure on the first chunk of `[5, 6]`
returns the absorbed count 2 with the error and emits nothing. -/
theorem c2_write_failure_semantics_witness :
    0 < (chunksOf [5, 6]).length ∧
    (compressorWrite (fun _ _ => ⟨2, some (), none, [], 0, none⟩)
        ⟨0, 0, 0⟩ [5, 6]).n = 2 ∧
    (compressorWrite (fun _ _ => ⟨2, some (), none, [], 0, none⟩)
        ⟨0, 0, 0⟩ [5, 6]).err = some () ∧
    (compressorWrite (fun _ _ => ⟨2, some (), none, [], 0, none⟩)
        ⟨0, 0, 0⟩ [5, 6]).out = [] := by
  have h := c2_write_failure_semantics (fun _ _ => ⟨2, some (), none, [], 0, none⟩)
    ⟨0, 0, 0⟩ [5, 6] 0 (by decide) (by intro j hj; omega)
  obtain ⟨h1, h2, h3⟩ := h.1 (by decide)
  refine ⟨by decide, ?_, h2, ?_⟩
  · rw [h1]; decide
  · rw [h3]; decide

/-- A non-empty input of at most 65535 bytes forms a single chunk. -/
theorem chunksOf_small {b : List Nat} (h1 : b ≠ []) (h2 : b.length ≤ 65535) :
    chunksOf b = [b] := by
  rw [chunksOf_cons h1]
  have hm : min b.length 65535 = b.length := by omega
  rw [hm, List.take_length, List.drop_length]
  rfl

theorem cwGo_pure_total (Z : List Nat → List Nat) :
    ∀ fuel b i st, b.length ≤ fuel → st.SizeTotal < 4294967296 →
    (cwGo (pureEnv Z) fuel i st b).st.SizeTotal =
      (st.SizeTotal + b.length) % 4294967296 := by
  intro fuel
  induction fuel with
  | zero =>
      intro b i st h hst
      have hb : b = [] := List.eq_nil_of_length_eq_zero (Nat.le_zero.mp h)
      subst hb
      simpa [cwGo] using (Nat.mod_eq_of_lt hst).symm
  | succ f ih =>
      intro b i st h hst
      by_cases hb : b = []
      · subst hb
        simpa [cwGo] using (Nat.mod_eq_of_lt hst).symm
      · have hlen : 0 < b.length := List.length_pos.mpr hb
        have htk : (b.take (min b.length 65535)).length = min b.length 65535 := by
          simp only [List.length_take]; omega
        simp only [cwGo, if_neg hb, pureEnv, Option.isSome_none,
          Bool.false_eq_true, if_false]
        rw [ih _ _ _ (by simp only [List.length_drop]; omega)
          (Nat.mod_lt _ (by omega))]
        simp only [htk, List.length_drop]
        omega

theorem compressorWrite_pure_total (Z : List Nat → List Nat) (st : CompState)
    (b : List Nat) (h : st.SizeTotal < 4294967296) :
    (compressorWrite (pureEnv Z) st b).st.SizeTotal =
      (st.SizeTotal + b.length) % 4294967296 :=
  cwGo_pure_total Z _ _ _ _ (Nat.le_refl _) h

/-- C3: `BufferedCompressor.Close` pads the current chunk with zero bytes
exactly when the buffer holds unflushed bytes and has free capacity; the
padded final chunk submitted to the compressor is exactly the configured
capacity, and the pad length is subtracted from the pre-compression counter
so that it nets only the real buffered bytes. Concretely, with capacity 8192
and 100 bytes buffered: 8092 zero bytes of padding, an 8192-byte physical
chunk, one emitted block, and the counter advancing by exactly 100. -/
theorem c3_close_padding (Z : List Nat → List Nat) (d : BufferedCompressor)
    (hwf : d.buf.length ≤ d.cap) (hst : d.comp.SizeTotal < 4294967296) :
    (BufferedCompressor.close Z d).2.2 =
      (if 0 < d.buf.length ∧ d.buf.length < d.cap then d.cap - d.buf.length
       else 0) ∧
    (0 < d.buf.length → d.buf.length < d.cap →
      (d.buf ++ List.replicate ((BufferedCompressor.close Z d).2.2) 0).length =
        d.cap ∧
      (BufferedCompressor.close Z d).2.1 =
        (chunksOf (d.buf ++ List.replicate (d.cap - d.buf.length) 0)).map
          (fun c => mkBlock c.length (Z c)) ∧
      (BufferedCompressor.close Z d).1.comp.SizeTotal =
        (d.comp.SizeTotal + d.buf.length) % 4294967296) ∧
    (d.cap = 8192 → d.buf.length = 100 →
      (BufferedCompressor.close Z d).2.2 = 8092 ∧
      (d.buf ++ List.replicate 8092 0).length = 8192 ∧
      (BufferedCompressor.close Z d).2.1 =
        [mkBlock 8192 (Z (d.buf ++ List.replicate 8092 0))] ∧
      (BufferedCompressor.close Z d).1.comp.SizeTotal =
        (d.comp.SizeTotal + 100) % 4294967296) := by
  by_cases hpad : 0 < d.buf.length ∧ d.buf.length < d.cap
  · have havail : 0 < d.avail ∧ 0 < d.buffered := by
      simp only [BufferedCompressor.avail, BufferedCompressor.buffered]
      omega
    have hne : d.buf ++ List.replicate (d.cap - d.buf.length) 0 ≠ [] := by
      intro hcontra
      have := congrArg List.length hcontra
      simp at this
      omega
    have hlenp :
        (d.buf ++ List.replicate (d.cap - d.buf.length) 0).length = d.cap := by
      simp
      omega
    have hclose : BufferedCompressor.close Z d =
        (⟨(compressorWrite (pureEnv Z)
             ⟨d.comp.SizeWritten, sub32 d.comp.SizeTotal (d.cap - d.buf.length),
              d.comp.NumBlocks⟩
             (d.buf ++ List.replicate (d.cap - d.buf.length) 0)).st, [], d.cap⟩,
         (compressorWrite (pureEnv Z)
             ⟨d.comp.SizeWritten, sub32 d.comp.SizeTotal (d.cap - d.buf.length),
              d.comp.NumBlocks⟩
             (d.buf ++ List.replicate (d.cap - d.buf.length) 0)).out,
         d.cap - d.buf.length) := by
      have hcond : 0 < d.cap - d.buf.length ∧ 0 < d.buf.length := by omega
      simp only [BufferedCompressor.close, BufferedCompressor.avail,
        BufferedCompressor.buffered, BufferedCompressor.bufWriteFit,
        BufferedCompressor.flush, if_neg hne, List.length_replicate]
      rw [if_pos hcond]
    have hsubst : sub32 d.comp.SizeTotal (d.cap - d.buf.length) < 4294967296 := by
      simp only [sub32]
      omega
    have htotal :
        (compressorWrite (pureEnv Z)
           ⟨d.comp.SizeWritten, sub32 d.comp.SizeTotal (d.cap - d.buf.length),
            d.comp.NumBlocks⟩
           (d.buf ++ List.replicate (d.cap - d.buf.length) 0)).st.SizeTotal =
          (d.comp.SizeTotal + d.buf.length) % 4294967296 := by
      rw [compressorWrite_pure_total _ _ _ hsubst]
      simp only [sub32, hlenp]
      omega
    rw [hclose]
    refine ⟨by rw [if_pos hpad], fun _ _ => ⟨?_, ?_, ?_⟩, fun hcap hlen => ?_⟩
    · simpa using hlenp
    · exact compressorWrite_pure_out _ _ _
    · exact htotal
    · have h8092 : d.cap - d.buf.length = 8092 := by omega
      rw [h8092] at htotal ⊢
      have hsingle : chunksOf (d.buf ++ List.replicate 8092 0) =
          [d.buf ++ List.replicate 8092 0] := by
        apply chunksOf_small
        · rw [h8092] at hne; exact hne
        · rw [h8092] at hlenp; omega
      refine ⟨rfl, by rw [List.length_append, List.length_replicate, hlen], ?_,
        by rw [htotal, hlen]⟩
      rw [compressorWrite_pure_out, hsingle]
      simp only [List.map_cons, List.map_nil]
      rw [h8092] at hlenp
      rw [hlenp, hcap]
  · have havail : ¬(0 < d.avail ∧ 0 < d.buffered) := by
      simp only [BufferedCompressor.avail, BufferedCompressor.buffered]
      omega
    have hclose2 : (BufferedCompressor.close Z d).2.2 = 0 := by
      simp only [BufferedCompressor.close, BufferedCompressor.avail,
        BufferedCompressor.buffered] at havail ⊢
      rw [if_neg havail]
    refine ⟨by rw [hclose2, if_neg hpad], fun h1 h2 => absurd ⟨h1, h2⟩ hpad,
      fun hcap hlen => absurd ⟨by omega, by omega⟩ hpad⟩

set_option maxRecDepth 4096 in
/-- Witness for C3: capacity 8192 with 100 buffered bytes pads 8092 zeros and
nets the counter by exactly 100. -/
theorem c3_close_padding_witness :
    (List.replicate 100 1).length ≤ 8192 ∧ (0 : Nat) < 4294967296 ∧
    (BufferedCompressor.close (fun _ => [])
        ⟨⟨0, 0, 0⟩, List.replicate 100 1, 8192⟩).2.2 = 8092 ∧
    (BufferedCompressor.close (fun _ => [])
        ⟨⟨0, 0, 0⟩, List.replicate 100 1, 8192⟩).1.comp.SizeTotal = 100 := by
  have h := c3_close_padding (fun _ => []) ⟨⟨0, 0, 0⟩, List.replicate 100 1, 8192⟩
    (by decide) (by decide)
  obtain ⟨hp, _, hconc⟩ := h
  obtain ⟨h1, _, _, h4⟩ := hconc rfl (by rw [List.length_replicate])
  refine ⟨by rw [List.length_replicate]; omega, by omega, h1, ?_⟩
  rw [h4]
  decide

/-- C10: `Compressor.Write` with empty input returns `(0, nil)`, emits no
block to the sink, and leaves all three counters unchanged. -/
theorem c10_write_empty_noop (env : Nat → List Nat → BlockRes) (st : CompState) :
    compressorWrite env st [] = ⟨0, none, st, []⟩ := rfl

/-! ## Claim theorems for the PacketBuffer codec -/

theorem deBE_be16 (v : Nat) : deBE (be16 v) = v % 65536 := by
  simp only [deBE, be16, List.foldl]
  omega

theorem readBlob_at_end (st : PacketBuffer) (p : List Nat) (n : Nat)
    (hcur : st.readPos = st.Bytes.length) (hn : n = p.length) :
    (st.writeBlob p).readBlob n = .ok (p, ⟨st.Bytes ++ p, st.readPos + n⟩) := by
  simp only [PacketBuffer.readBlob, PacketBuffer.writeBlob, PacketBuffer.size, hcur]
  rw [if_neg (by simp only [List.length_append]; omega), List.drop_left, hn,
    List.take_length]

theorem readBlob_size {st : PacketBuffer} {n : Nat} {bs : List Nat}
    {st2 : PacketBuffer} (h : st.readBlob n = .ok (bs, st2)) :
    st2.size = st.size - n := by
  by_cases hsz : st.size < n
  · simp [PacketBuffer.readBlob, hsz] at h
  · simp only [PacketBuffer.readBlob, if_neg hsz, Except.ok.injEq, Prod.mk.injEq] at h
    rw [← h.2]
    simp only [PacketBuffer.size]
    omega

/-- C4: For each scalar width (u8, u16, u32 little-endian, and the big-endian
16-bit port), reading immediately after writing (read cursor at the end of
the valid data before the write) returns the original value, and a
successful read always decreases `Size()` by the field's byte width. -/
theorem c4_scalar_roundtrip_and_size :
    (∀ (st : PacketBuffer) (v : Nat), st.readPos = st.Bytes.length → v < 256 →
       (st.writeUInt8 v).readUInt8 = .ok (v, (st.writeUInt8 v).skip 1)) ∧
    (∀ (st : PacketBuffer) (x : Nat) (st2 : PacketBuffer),
       st.readUInt8 = .ok (x, st2) → st2.size = st.size - 1) ∧
    (∀ (st : PacketBuffer) (v : Nat), st.readPos = st.Bytes.length → v < 65536 →
       (st.writeUInt16 v).readUInt16 = .ok (v, (st.writeUInt16 v).skip 2)) ∧
    (∀ (st : PacketBuffer) (x : Nat) (st2 : PacketBuffer),
       st.readUInt16 = .ok (x, st2) → st2.size = st.size - 2) ∧
    (∀ (st : PacketBuffer) (v : Nat), st.readPos = st.Bytes.length →
       v < 4294967296 →
       (st.writeUInt32 v).readUInt32 = .ok (v, (st.writeUInt32 v).skip 4)) ∧
    (∀ (st : PacketBuffer) (x : Nat) (st2 : PacketBuffer),
       st.readUInt32 = .ok (x, st2) → st2.size = st.size - 4) ∧
    (∀ (st : PacketBuffer) (v : Nat), st.readPos = st.Bytes.length → v < 65536 →
       (st.writePort v).readPort = .ok (v, (st.writePort v).skip 2)) ∧
    (∀ (st : PacketBuffer) (x : Nat) (st2 : PacketBuffer),
       st.readPort = .ok (x, st2) → st2.size = st.size - 2) := by
  refine ⟨fun st v hcur hv => ?_, fun st x st2 h => ?_,
          fun st v hcur hv => ?_, fun st x st2 h => ?_,
          fun st v hcur hv => ?_, fun st x st2 h => ?_,
          fun st v hcur hv => ?_, fun st x st2 h => ?_⟩
  · rw [PacketBuffer.readUInt8, PacketBuffer.writeUInt8,
      readBlob_at_end st _ 1 hcur (by rfl)]
    simp only [deLE, List.foldr, PacketBuffer.skip, PacketBuffer.writeUInt8,
      PacketBuffer.writeBlob, Except.ok.injEq, Prod.mk.injEq]
    exact ⟨by omega, by trivial⟩
  · rcases hps : st.readBlob 1 with e | pr
    · simp [PacketBuffer.readUInt8, hps] at h
    · simp only [PacketBuffer.readUInt8, hps, Except.ok.injEq, Prod.mk.injEq] at h
      rw [← h.2]
      exact readBlob_size hps
  · rw [PacketBuffer.readUInt16, PacketBuffer.writeUInt16,
      readBlob_at_end st _ 2 hcur (by rfl)]
    simp only [deLE_le16, PacketBuffer.skip, PacketBuffer.writeUInt16,
      PacketBuffer.writeBlob, Except.ok.injEq, Prod.mk.injEq]
    exact ⟨by omega, by trivial⟩
  · rcases hps : st.readBlob 2 with e | pr
    · simp [PacketBuffer.readUInt16, hps] at h
    · simp only [PacketBuffer.readUInt16, hps, Except.ok.injEq, Prod.mk.injEq] at h
      rw [← h.2]
      exact readBlob_size hps
  · rw [PacketBuffer.readUInt32, PacketBuffer.writeUInt32,
      readBlob_at_end st _ 4 hcur (by rfl)]
    simp only [deLE, le32, List.foldr, PacketBuffer.skip, PacketBuffer.writeUInt32,
      PacketBuffer.writeBlob, Except.ok.injEq, Prod.mk.injEq]
    exact ⟨by omega, by trivial⟩
  · rcases hps : st.readBlob 4 with e | pr
    · simp [PacketBuffer.readUInt32, hps] at h
    · simp only [PacketBuffer.readUInt32, hps, Except.ok.injEq, Prod.mk.injEq] at h
      rw [← h.2]
      exact readBlob_size hps
  · rw [PacketBuffer.readPort, PacketBuffer.writePort,
      readBlob_at_end st _ 2 hcur (by rfl)]
    simp only [deBE_be16, PacketBuffer.skip, PacketBuffer.writePort,
      PacketBuffer.writeBlob, Except.ok.injEq, Prod.mk.injEq]
    exact ⟨by omega, by trivial⟩
  · rcases hps : st.readBlob 2 with e | pr
    · simp [PacketBuffer.readPort, hps] at h
    · simp only [PacketBuffer.readPort, hps, Except.ok.injEq, Prod.mk.injEq] at h
      rw [← h.2]
      exact readBlob_size hps

/-- Witness for C4: concrete round-trips on a one-byte-prefixed buffer. -/
theorem c4_scalar_roundtrip_and_size_witness :
    PacketBuffer.readUInt8 (PacketBuffer.writeUInt8 ⟨[9], 1⟩ 127) =
      .ok (127, PacketBuffer.skip (PacketBuffer.writeUInt8 ⟨[9], 1⟩ 127) 1) ∧
    PacketBuffer.readUInt16 (PacketBuffer.writeUInt16 ⟨[9], 1⟩ 65534) =
      .ok (65534, PacketBuffer.skip (PacketBuffer.writeUInt16 ⟨[9], 1⟩ 65534) 2) ∧
    PacketBuffer.readUInt32 (PacketBuffer.writeUInt32 ⟨[9], 1⟩ 4294967294) =
      .ok (4294967294,
        PacketBuffer.skip (PacketBuffer.writeUInt32 ⟨[9], 1⟩ 4294967294) 4) ∧
    PacketBuffer.readPort (PacketBuffer.writePort ⟨[9], 1⟩ 6112) =
      .ok (6112, PacketBuffer.skip (PacketBuffer.writePort ⟨[9], 1⟩ 6112) 2) ∧
    PacketBuffer.size (PacketBuffer.skip (PacketBuffer.writePort ⟨[9], 1⟩ 6112) 2) =
      PacketBuffer.size (PacketBuffer.writePort ⟨[9], 1⟩ 6112) - 2 := by
  obtain ⟨h1, _, h3, _, h5, _, h7, h8⟩ := c4_scalar_roundtrip_and_size
  exact ⟨h1 ⟨[9], 1⟩ 127 (by decide) (by decide),
         h3 ⟨[9], 1⟩ 65534 (by decide) (by decide),
         h5 ⟨[9], 1⟩ 4294967294 (by decide) (by decide),
         h7 ⟨[9], 1⟩ 6112 (by decide) (by decide),
         h8 (PacketBuffer.writePort ⟨[9], 1⟩ 6112) 6112 _
           (h7 ⟨[9], 1⟩ 6112 (by decide) (by decide))⟩

theorem patchAt_length {l p : List Nat} {off : Nat}
    (h : off + p.length ≤ l.length) :
    (PacketBuffer.patchAt l off p).length = l.length := by
  simp only [PacketBuffer.patchAt, List.length_append, List.length_take,
    List.length_drop]
  omega

theorem patchAt_window {l p : List Nat} {off : Nat}
    (h : off + p.length ≤ l.length) :
    ((PacketBuffer.patchAt l off p).drop off).take p.length = p := by
  have htk : (l.take off).length = off := by
    simp only [List.length_take]
    omega
  simp only [PacketBuffer.patchAt, List.append_assoc]
  rw [List.drop_left' htk, List.take_left' rfl]

theorem patchAt_front_unchanged {l p : List Nat} {off : Nat}
    (h : off + p.length ≤ l.length) :
    (PacketBuffer.patchAt l off p).take off = l.take off := by
  have htk : (l.take off).length = off := by
    simp only [List.length_take]
    omega
  simp only [PacketBuffer.patchAt, List.append_assoc]
  rw [List.take_left' htk]

theorem patchAt_back_unchanged {l p : List Nat} {off : Nat}
    (h : off + p.length ≤ l.length) :
    (PacketBuffer.patchAt l off p).drop (off + p.length) =
      l.drop (off + p.length) := by
  have hlen : (l.take off ++ p).length = off + p.length := by
    simp only [List.length_append, List.length_take]
    omega
  calc (PacketBuffer.patchAt l off p).drop (off + p.length)
      = ((l.take off ++ p) ++ l.drop (off + p.length)).drop (off + p.length) := by
        simp [PacketBuffer.patchAt, List.append_assoc]
    _ = l.drop (off + p.length) := List.drop_left' hlen

theorem writeBlobAt_frame (st : PacketBuffer) (off : Nat) (p : List Nat)
    (h : off + p.length ≤ st.Bytes.length) :
    (st.writeBlobAt off p).readPos = st.readPos ∧
    (st.writeBlobAt off p).Bytes.length = st.Bytes.length ∧
    (st.writeBlobAt off p).size = st.size ∧
    ((st.writeBlobAt off p).Bytes.drop off).take p.length = p ∧
    (st.writeBlobAt off p).Bytes.take off = st.Bytes.take off ∧
    (st.writeBlobAt off p).Bytes.drop (off + p.length) =
      st.Bytes.drop (off + p.length) := by
  refine ⟨rfl, patchAt_length h, ?_, patchAt_window h, patchAt_front_unchanged h,
    patchAt_back_unchanged h⟩
  simp only [PacketBuffer.size, PacketBuffer.writeBlobAt, patchAt_length h]

/-- C5: A positional overwrite `WriteXAt(offset, v)` within the written
region never changes the cursors or `Size()`; afterwards the bytes at the
patched window hold the encoding of `v` while the bytes before and after the
window are unchanged, and re-reading the buffer at that offset yields `v`. -/
theorem c5_write_at_frame (st : PacketBuffer) (off v : Nat) :
    (off + 1 ≤ st.Bytes.length →
      (st.writeUInt8At off v).readPos = st.readPos ∧
      (st.writeUInt8At off v).Bytes.length = st.Bytes.length ∧
      (st.writeUInt8At off v).size = st.size ∧
      ((st.writeUInt8At off v).Bytes.drop off).take 1 = [v % 256] ∧
      (st.writeUInt8At off v).Bytes.take off = st.Bytes.take off ∧
      (st.writeUInt8At off v).Bytes.drop (off + 1) = st.Bytes.drop (off + 1)) ∧
    (off + 2 ≤ st.Bytes.length →
      (st.writeUInt16At off v).readPos = st.readPos ∧
      (st.writeUInt16At off v).Bytes.length = st.Bytes.length ∧
      (st.writeUInt16At off v).size = st.size ∧
      ((st.writeUInt16At off v).Bytes.drop off).take 2 = le16 v ∧
      (st.writeUInt16At off v).Bytes.take off = st.Bytes.take off ∧
      (st.writeUInt16At off v).Bytes.drop (off + 2) = st.Bytes.drop (off + 2)) ∧
    (off + 4 ≤ st.Bytes.length →
      (st.writeUInt32At off v).readPos = st.readPos ∧
      (st.writeUInt32At off v).Bytes.length = st.Bytes.length ∧
      (st.writeUInt32At off v).size = st.size ∧
      ((st.writeUInt32At off v).Bytes.drop off).take 4 = le32 v ∧
      (st.writeUInt32At off v).Bytes.take off = st.Bytes.take off ∧
      (st.writeUInt32At off v).Bytes.drop (off + 4) = st.Bytes.drop (off + 4)) ∧
    (off + 2 ≤ st.Bytes.length →
      (st.writePortAt off v).readPos = st.readPos ∧
      (st.writePortAt off v).Bytes.length = st.Bytes.length ∧
      (st.writePortAt off v).size = st.size ∧
      ((st.writePortAt off v).Bytes.drop off).take 2 = be16 v ∧
      (st.writePortAt off v).Bytes.take off = st.Bytes.take off ∧
      (st.writePortAt off v).Bytes.drop (off + 2) = st.Bytes.drop (off + 2)) ∧
    (off + 2 ≤ st.Bytes.length → v < 65536 →
      PacketBuffer.readUInt16 ⟨(st.writeUInt16At off v).Bytes, off⟩ =
        .ok (v, ⟨(st.writeUInt16At off v).Bytes, off + 2⟩)) := by
  refine ⟨fun h => ?_, fun h => ?_, fun h => ?_, fun h => ?_, fun h hv => ?_⟩
  · exact writeBlobAt_frame st off [v % 256] (by simpa using h)
  · exact writeBlobAt_frame st off (le16 v) (by simpa [le16] using h)
  · exact writeBlobAt_frame st off (le32 v) (by simpa [le32] using h)
  · exact writeBlobAt_frame st off (be16 v) (by simpa [be16] using h)
  · have h2 : off + (le16 v).length ≤ st.Bytes.length := by
      simpa [le16] using h
    have hl := @patchAt_length st.Bytes (le16 v) off h2
    have hw : ((PacketBuffer.patchAt st.Bytes off (le16 v)).drop off).take 2 =
        le16 v := patchAt_window h2
    have hrb : PacketBuffer.readBlob
        ⟨PacketBuffer.patchAt st.Bytes off (le16 v), off⟩ 2 =
        .ok (le16 v, ⟨PacketBuffer.patchAt st.Bytes off (le16 v), off + 2⟩) := by
      simp only [PacketBuffer.readBlob, PacketBuffer.size]
      rw [if_neg (by simp only [hl]; omega), hw]
    simp only [PacketBuffer.writeUInt16At, PacketBuffer.writeBlobAt]
    simp only [PacketBuffer.readUInt16, hrb, deLE_le16, Nat.mod_eq_of_lt hv]

/-- Witness for C5: patching offset 2 of a six-byte buffer with 65534. -/
theorem c5_write_at_frame_witness :
    ((PacketBuffer.writeUInt16At ⟨[1, 2, 3, 4, 5, 6], 0⟩ 2 65534).readPos =
        (⟨[1, 2, 3, 4, 5, 6], 0⟩ : PacketBuffer).readPos ∧
     (PacketBuffer.writeUInt16At ⟨[1, 2, 3, 4, 5, 6], 0⟩ 2 65534).Bytes.length =
        (⟨[1, 2, 3, 4, 5, 6], 0⟩ : PacketBuffer).Bytes.length ∧
     (PacketBuffer.writeUInt16At ⟨[1, 2, 3, 4, 5, 6], 0⟩ 2 65534).size =
        (⟨[1, 2, 3, 4, 5, 6], 0⟩ : PacketBuffer).size ∧
     ((PacketBuffer.writeUInt16At ⟨[1, 2, 3, 4, 5, 6], 0⟩ 2 65534).Bytes.drop 2).take 2 =
        le16 65534 ∧
     (PacketBuffer.writeUInt16At ⟨[1, 2, 3, 4, 5, 6], 0⟩ 2 65534).Bytes.take 2 =
        (⟨[1, 2, 3, 4, 5, 6], 0⟩ : PacketBuffer).Bytes.take 2 ∧
     (PacketBuffer.writeUInt16At ⟨[1, 2, 3, 4, 5, 6], 0⟩ 2 65534).Bytes.drop (2 + 2) =
        (⟨[1, 2, 3, 4, 5, 6], 0⟩ : PacketBuffer).Bytes.drop (2 + 2)) ∧
    PacketBuffer.readUInt16
        ⟨(PacketBuffer.writeUInt16At ⟨[1, 2, 3, 4, 5, 6], 0⟩ 2 65534).Bytes, 2⟩ =
      .ok (65534,
        ⟨(PacketBuffer.writeUInt16At ⟨[1, 2, 3, 4, 5, 6], 0⟩ 2 65534).Bytes, 2 + 2⟩) :=
  ⟨(c5_write_at_frame ⟨[1, 2, 3, 4, 5, 6], 0⟩ 2 65534).2.1 (by decide),
   (c5_write_at_frame ⟨[1, 2, 3, 4, 5, 6], 0⟩ 2 65534).2.2.2.2 (by decide) (by decide)⟩

/-- C6: writing the 4 raw octets of IPv4 127.0.0.1 and reading the same 4
bytes back as a little-endian 32-bit integer yields 0x0100007F: the address
octets sit in natural left-to-right order while integers are little-endian. -/
theorem c6_ip_le32_reinterpretation :
    PacketBuffer.writeIP ⟨[], 0⟩ (some [127, 0, 0, 1]) =
      .ok ⟨[127, 0, 0, 1], 0⟩ ∧
    PacketBuffer.readUInt32 ⟨[127, 0, 0, 1], 0⟩ =
      .ok (0x0100007F, ⟨[127, 0, 0, 1], 4⟩) :=
  ⟨rfl, rfl⟩

/-- C7: a valid 4-byte address round-trips through WriteIP/ReadIP, and both
WriteIP and the positional WriteIPAt fail with InvalidIPv4 exactly when the
address is absent or not exactly 4 bytes long (including the 2-byte case). -/
theorem c7_ip_roundtrip_and_invalid (st : PacketBuffer) (ip : List Nat)
    (off : Nat) :
    (st.readPos = st.Bytes.length → ip.length = 4 →
       st.writeIP (some ip) = .ok (st.writeBlob ip) ∧
       (st.writeBlob ip).readIP = .ok (ip, (st.writeBlob ip).skip 4)) ∧
    (∀ o : Option (List Nat),
       st.writeIP o = .error .invalidIP4 ↔
         o = none ∨ ∃ l, o = some l ∧ l.length ≠ 4) ∧
    (∀ o : Option (List Nat),
       st.writeIPAt off o = .error .invalidIP4 ↔
         o = none ∨ ∃ l, o = some l ∧ l.length ≠ 4) ∧
    st.writeIP (some [0, 0]) = .error .invalidIP4 := by
  refine ⟨fun hcur hip => ⟨?_, ?_⟩, fun o => ?_, fun o => ?_, ?_⟩
  · simp [PacketBuffer.writeIP, hip]
  · rw [PacketBuffer.readIP, readBlob_at_end st ip 4 hcur hip.symm]
    rfl
  · cases o with
    | none => simp [PacketBuffer.writeIP]
    | some l =>
        by_cases hl : l.length = 4
        · simp [PacketBuffer.writeIP, hl]
        · simp [PacketBuffer.writeIP, hl]
  · cases o with
    | none => simp [PacketBuffer.writeIPAt]
    | some l =>
        by_cases hl : l.length = 4
        · simp [PacketBuffer.writeIPAt, hl]
        · simp [PacketBuffer.writeIPAt, hl]
  · simp [PacketBuffer.writeIP]

/-- Witness for C7: round-trip of 192.168.1.101 and rejection of a 2-byte
address. -/
theorem c7_ip_roundtrip_and_invalid_witness :
    PacketBuffer.writeIP ⟨[], 0⟩ (some [192, 168, 1, 101]) =
      .ok (PacketBuffer.writeBlob ⟨[], 0⟩ [192, 168, 1, 101]) ∧
    PacketBuffer.readIP (PacketBuffer.writeBlob ⟨[], 0⟩ [192, 168, 1, 101]) =
      .ok ([192, 168, 1, 101],
        PacketBuffer.skip (PacketBuffer.writeBlob ⟨[], 0⟩ [192, 168, 1, 101]) 4) ∧
    PacketBuffer.writeIP ⟨[], 0⟩ (some [0, 0]) = .error .invalidIP4 := by
  obtain ⟨h1, h2⟩ :=
    (c7_ip_roundtrip_and_invalid ⟨[], 0⟩ [192, 168, 1, 101] 0).1 rfl rfl
  exact ⟨h1, h2, (c7_ip_roundtrip_and_invalid ⟨[], 0⟩ [192, 168, 1, 101] 0).2.2.2⟩

theorem readSockAddr_full_at (st : PacketBuffer) (bs : List Nat)
    (hcur : st.readPos = st.Bytes.length) (hlen : bs.length = 16) :
    (st.writeBlob bs).readSockAddr =
      (if deLE (bs.take 2) = 0 then
        if (bs.drop 2).all (fun x => x = 0) then
          .ok (⟨0, none⟩, (st.writeBlob bs).skip 16)
        else .error .invalidSockAddr
      else if deLE (bs.take 2) = 2 then
        if (bs.drop 8).all (fun x => x = 0) then
          .ok (⟨deBE ((bs.drop 2).take 2), some ((bs.drop 4).take 4)⟩,
            (st.writeBlob bs).skip 16)
        else .error .invalidSockAddr
      else .error .invalidSockAddr) := by
  have hrb : (st.writeBlob bs).readBlob 16 =
      .ok (bs, ⟨st.Bytes ++ bs, st.readPos + 16⟩) :=
    readBlob_at_end st bs 16 hcur hlen.symm
  simp only [PacketBuffer.writeBlob] at hrb
  simp only [PacketBuffer.readSockAddr, PacketBuffer.skip,
    PacketBuffer.writeBlob, hrb]

theorem readSockAddr_raw (bs : List Nat) (hlen : bs.length = 16) :
    PacketBuffer.readSockAddr ⟨bs, 0⟩ =
      (if deLE (bs.take 2) = 0 then
        if (bs.drop 2).all (fun x => x = 0) then .ok (⟨0, none⟩, ⟨bs, 16⟩)
        else .error .invalidSockAddr
      else if deLE (bs.take 2) = 2 then
        if (bs.drop 8).all (fun x => x = 0) then
          .ok (⟨deBE ((bs.drop 2).take 2), some ((bs.drop 4).take 4)⟩, ⟨bs, 16⟩)
        else .error .invalidSockAddr
      else .error .invalidSockAddr) := by
  have hrb : PacketBuffer.readBlob ⟨bs, 0⟩ 16 = .ok (bs, ⟨bs, 16⟩) := by
    simp only [PacketBuffer.readBlob, PacketBuffer.size]
    rw [if_neg (by omega), List.drop_zero, List.take_of_length_le (by omega)]
  simp only [PacketBuffer.readSockAddr, hrb]

theorem all_zero_eq_false_of_mem {t : List Nat} (x : Nat) (hmem : x ∈ t)
    (hx : x ≠ 0) : t.all (fun y => y = 0) = false := by
  rw [List.all_eq_false]
  exact ⟨x, hmem, by simpa using hx⟩

theorem c8_aux_fam0 (t : List Nat) (ht : t.length = 14) (x : Nat)
    (hmem : x ∈ t) (hx : x ≠ 0) :
    PacketBuffer.readSockAddr ⟨0 :: 0 :: t, 0⟩ = .error .invalidSockAddr := by
  rw [readSockAddr_raw (0 :: 0 :: t) (by simp [ht])]
  have hall : t.all (fun y => y = 0) = false := all_zero_eq_false_of_mem x hmem hx
  have htake : (0 :: 0 :: t).take 2 = [0, 0] := rfl
  have hdrop : (0 :: 0 :: t).drop 2 = t := rfl
  rw [htake, hdrop, if_pos (by rfl), if_neg (by simp [hall])]

/-- C8: the empty socket address serializes to 16 zero bytes and reads back
as port 0 with no address; a family-0 record with any nonzero byte among
bytes 2..16, a family-2 record with any nonzero byte in the reserved bytes
8..16, and any record with a family other than 0 or 2, all fail with
InvalidSocketAddress on read. -/
theorem c8_sockaddr_validation (st : PacketBuffer) :
    st.writeSockAddr ⟨0, none⟩ = .ok (st.writeBlob (List.replicate 16 0)) ∧
    (st.readPos = st.Bytes.length →
      (st.writeBlob (List.replicate 16 0)).readSockAddr =
        .ok (⟨0, none⟩, (st.writeBlob (List.replicate 16 0)).skip 16)) ∧
    (∀ t : List Nat, t.length = 14 → ∀ x ∈ t, x ≠ 0 →
      PacketBuffer.readSockAddr ⟨0 :: 0 :: t, 0⟩ = .error .invalidSockAddr) ∧
    (∀ i v : Nat, 2 ≤ i → i < 16 → v ≠ 0 →
      PacketBuffer.readSockAddr ⟨(List.replicate 16 0).set i v, 0⟩ =
        .error .invalidSockAddr) ∧
    (∀ (p : Nat) (ip r : List Nat), ip.length = 4 → r.length = 8 →
      ∀ x ∈ r, x ≠ 0 →
      PacketBuffer.readSockAddr ⟨le16 2 ++ be16 p ++ ip ++ r, 0⟩ =
        .error .invalidSockAddr) ∧
    (∀ (f : Nat) (rest : List Nat), f < 65536 → f ≠ 0 → f ≠ 2 →
      rest.length = 14 →
      PacketBuffer.readSockAddr ⟨le16 f ++ rest, 0⟩ =
        .error .invalidSockAddr) := by
  refine ⟨rfl, fun hcur => ?_, fun t ht x hmem hx => ?_,
    fun i v hi2 hi16 hv => ?_, fun p ip r hip hr x hmem hx => ?_,
    fun f rest hf hf0 hf2 hrest => ?_⟩
  · rw [readSockAddr_full_at st _ hcur (by decide)]
    rw [if_pos (by decide), if_pos (by decide)]
  · exact c8_aux_fam0 t ht x hmem hx
  · obtain ⟨k, rfl⟩ : ∃ k, i = k + 2 := ⟨i - 2, by omega⟩
    have hrepl : List.replicate 16 (0 : Nat) = 0 :: 0 :: List.replicate 14 0 := rfl
    rw [hrepl, List.set_cons_succ, List.set_cons_succ]
    have hk : k < (List.replicate 14 (0 : Nat)).length := by
      simp only [List.length_replicate]
      omega
    exact c8_aux_fam0 ((List.replicate 14 0).set k v)
      (by simp [List.length_set]) v (List.mem_set _ k hk v) hv
  · have hlen : (le16 2 ++ be16 p ++ ip ++ r).length = 16 := by
      simp [le16, be16]
      omega
    rw [readSockAddr_raw _ hlen]
    have hassoc : le16 2 ++ be16 p ++ ip ++ r =
        le16 2 ++ (be16 p ++ (ip ++ r)) := by
      simp [List.append_assoc]
    have htake : (le16 2 ++ be16 p ++ ip ++ r).take 2 = le16 2 := by
      rw [hassoc, List.take_left' (by rfl)]
    have hdrop : (le16 2 ++ be16 p ++ ip ++ r).drop 8 = r := by
      rw [show le16 2 ++ be16 p ++ ip ++ r = (le16 2 ++ be16 p ++ ip) ++ r from by
        simp [List.append_assoc]]
      exact List.drop_left' (by simp [le16, be16]; omega)
    have hall : r.all (fun y => y = 0) = false := all_zero_eq_false_of_mem x hmem hx
    rw [htake, hdrop, if_neg (by rw [deLE_le16]; omega),
      if_pos (by rw [deLE_le16]), if_neg (by simp [hall])]
  · have hlen : (le16 f ++ rest).length = 16 := by
      simp [le16]
      omega
    rw [readSockAddr_raw _ hlen]
    have htake : (le16 f ++ rest).take 2 = le16 f := List.take_left' (by rfl)
    rw [htake, deLE_le16, Nat.mod_eq_of_lt hf, if_neg hf0, if_neg hf2]

/-- Witness for C8: the empty address round-trips, and stray bytes at
position 3 (family 0) and 15 (family 2 reserved) are rejected. -/
theorem c8_sockaddr_validation_witness :
    PacketBuffer.writeSockAddr ⟨[], 0⟩ ⟨0, none⟩ =
      .ok (PacketBuffer.writeBlob ⟨[], 0⟩ (List.replicate 16 0)) ∧
    (PacketBuffer.writeBlob ⟨[], 0⟩ (List.replicate 16 0)).readSockAddr =
      .ok (⟨0, none⟩,
        PacketBuffer.skip (PacketBuffer.writeBlob ⟨[], 0⟩ (List.replicate 16 0)) 16) ∧
    PacketBuffer.readSockAddr ⟨(List.replicate 16 0).set 3 1, 0⟩ =
      .error .invalidSockAddr ∧
    PacketBuffer.readSockAddr
        ⟨le16 2 ++ be16 6112 ++ [192, 168, 1, 101] ++
          [0, 0, 0, 0, 0, 0, 0, 1], 0⟩ =
      .error .invalidSockAddr ∧
    PacketBuffer.readSockAddr ⟨le16 1 ++ List.replicate 14 0, 0⟩ =
      .error .invalidSockAddr := by
  obtain ⟨h1, h2, _, h4, h5, h6⟩ := c8_sockaddr_validation ⟨[], 0⟩
  exact ⟨h1, h2 rfl, h4 3 1 (by omega) (by omega) (by omega),
    h5 6112 [192, 168, 1, 101] [0, 0, 0, 0, 0, 0, 0, 1] (by decide) (by decide)
      1 (by decide) (by decide),
    h6 1 (List.replicate 14 0) (by omega) (by omega) (by omega) (by decide)⟩

theorem findIdx_none_of_no_zero (l : List Nat) (h : ∀ x ∈ l, x ≠ 0) :
    l.findIdx? (fun x => x = 0) = none := by
  rw [List.findIdx?_eq_none_iff]
  intro x hx
  simpa using h x hx

theorem findIdx_append_zero (rest : List Nat) :
    ∀ s : List Nat, (∀ x ∈ s, x ≠ 0) → ∀ i : Nat,
    List.findIdx? (fun x => x = 0) (s ++ 0 :: rest) i = some (i + s.length) := by
  intro s
  induction s with
  | nil =>
      intro _ i
      simp [List.findIdx?_cons]
  | cons a s ih =>
      intro h i
      have ha : a ≠ 0 := h a (List.mem_cons_self a s)
      simp only [List.cons_append, List.findIdx?_cons]
      rw [if_neg (by simpa using ha),
        ih (fun x hx => h x (List.mem_cons_of_mem a hx)) (i + 1)]
      congr 1
      simp only [List.length_cons]
      omega

/-- C9: reading a C-string from a buffer whose unread region has no zero byte
fails with NoTerminatorFound and moves the read cursor to the end of the
buffer (zero unread bytes remain); with a terminator present the read returns
the bytes before it and advances past the terminator, leaving the suffix. -/
theorem c9_cstring_read (st : PacketBuffer) (s rest : List Nat) :
    ((∀ x ∈ st.Bytes.drop st.readPos, x ≠ 0) →
      st.readCString =
        (.error .noCStringTerminatorFound, ⟨st.Bytes, st.Bytes.length⟩) ∧
      (⟨st.Bytes, st.Bytes.length⟩ : PacketBuffer).size = 0) ∧
    ((∀ x ∈ s, x ≠ 0) → st.Bytes.drop st.readPos = s ++ 0 :: rest →
      st.readCString = (.ok s, ⟨st.Bytes, st.readPos + s.length + 1⟩) ∧
      st.Bytes.drop (st.readPos + s.length + 1) = rest) := by
  constructor
  · intro h
    constructor
    · simp only [PacketBuffer.readCString, findIdx_none_of_no_zero _ h]
    · simp [PacketBuffer.size]
  · intro hs hun
    have hidx : (st.Bytes.drop st.readPos).findIdx? (fun x => x = 0) =
        some s.length := by
      rw [hun]
      simpa using findIdx_append_zero rest s hs 0
    rw [hun] at hidx
    constructor
    · simp only [PacketBuffer.readCString, hun, hidx, List.take_left]
    · calc st.Bytes.drop (st.readPos + s.length + 1)
          = (st.Bytes.drop st.readPos).drop (s.length + 1) := by
            rw [List.drop_drop]
            congr 1
        _ = ((s ++ [0]) ++ rest).drop (s.length + 1) := by
            rw [hun]
            simp
        _ = rest := List.drop_left' (by simp)

/-- Witness for C9: an unterminated buffer fails and is fully consumed; a
terminated buffer returns the prefix and leaves the suffix unread. -/
theorem c9_cstring_read_witness :
    (PacketBuffer.readCString ⟨[1, 2, 3, 4], 0⟩ =
      (.error .noCStringTerminatorFound, ⟨[1, 2, 3, 4], 4⟩) ∧
     (⟨[1, 2, 3, 4], 4⟩ : PacketBuffer).size = 0) ∧
    (PacketBuffer.readCString ⟨[104, 105, 0, 7, 8], 0⟩ =
      (.ok [104, 105], ⟨[104, 105, 0, 7, 8], 3⟩) ∧
     List.drop 3 [104, 105, 0, 7, 8] = [7, 8]) :=
  ⟨(c9_cstring_read ⟨[1, 2, 3, 4], 0⟩ [] []).1 (by decide),
   (c9_cstring_read ⟨[104, 105, 0, 7, 8], 0⟩ [104, 105] [7, 8]).2
     (by decide) (by decide)⟩

end GoWC3
